import Mathlib

/-!
Verification of the structural type algebra in
`src/tsparser/src/parser/types/typ.rs` (Encore's TypeScript parser).

The Rust `Type` enum and its operations (`identical`, `union_merge`,
`simplify_union`, `assignable`, `extends`, `intersect`) are embedded as
executable Lean definitions.  Modelling conventions:

* Panics (`todo!()` in `ClassType::identical`, the `.expect(..)` in the
  interface branch of `intersect`) are modelled by returning `none`:
  functions that can panic return `Option _`, where `none` means the Rust
  code aborts and `some v` means it returns the value `v`.
* `f64` literal payloads are modelled as `Int`.  The source guarantees
  literal floats are never NaN, and literal equality is plain value
  equality, so only decidable equality of the payload is observable to the
  algebra.  The `i64 as f64` cast in `EnumValue::to_literal` is modelled as
  the identity on the integer value.
* `Rc<object::Object>` handles are modelled by their stable ids (`Nat`):
  the algebra only ever reads `obj.id` (and hands the object to the
  external resolution context).
* `swc` source ranges (`InterfaceField.range`) are omitted: no algebra
  operation reads them.
* The resolution context (`Ctx` / `ResolveState` with `underlying_named`,
  defined outside `src/`) is modelled from the spec as an arbitrary
  function from a declaration id and type-argument list to a type.
  `assignable`, `extends` and `intersect` can recurse through it
  unboundedly (the spec flags this as an open infinite-recursion hazard),
  so those three functions take a fuel parameter; exhausted fuel also
  yields `none`.
* `validation::Expr` (outside `src/`) is modelled from the spec as an
  opaque expression tree supporting `and`/`or` combination.
-/

/-- Modelled from the spec: `validation::Expr`, the validation predicate
expression type from the (missing) `validation` module.  Opaque to the
algebra; it only supports `and`/`or` combination. -/
inductive VExpr : Type where
  | atom (n : Nat)
  | and (a b : VExpr)
  | or (a b : VExpr)
deriving Repr, DecidableEq

/-- Rust `validation::Expr::or`. Modelled from the spec: logical OR combination. -/
def VExpr.orE (a b : VExpr) : VExpr := VExpr.or a b

/-- Rust `validation::Expr::and`. Modelled from the spec: logical AND combination. -/
def VExpr.andE (a b : VExpr) : VExpr := VExpr.and a b

/-- Rust `Basic`: the primitive type kinds. -/
inductive Basic : Type where
  | any | string | boolean | number | object | bigInt | date | symbol
  | undefined | null | void | unknown | never
deriving Repr, DecidableEq

/-- Rust `Literal`: literal types.  The `f64` payload of `Literal::Number` is
modelled as `Int` (source literals are never NaN and only value equality is
observed). -/
inductive Literal : Type where
  | string (s : String)
  | boolean (b : Bool)
  | number (n : Int)
  | bigInt (s : String)
deriving Repr, DecidableEq

/-- Rust `Literal::basic`: the basic kind a literal belongs to. -/
def Literal.basic : Literal → Basic
  | .string _ => .string
  | .boolean _ => .boolean
  | .number _ => .number
  | .bigInt _ => .bigInt

/-- Rust `FieldName`: interface field names.  `Symbol(Rc<Object>)` is modelled by
the object's stable id. -/
inductive FieldName : Type where
  | string (s : String)
  | symbol (objId : Nat)
deriving Repr, DecidableEq

/-- Rust `EnumValue`: the value of an enum member (the `i64` payload kept as `Int`). -/
inductive EnumValue : Type where
  | string (s : String)
  | number (n : Int)
deriving Repr, DecidableEq

/-- Rust `EnumMember`: a name/value pair of an enum. -/
structure EnumMember : Type where
  name : String
  value : EnumValue
deriving Repr, DecidableEq

/-- Rust `WireLocation`. -/
inductive WireLocation : Type where
  | query | header | pubSubAttr | cookie
deriving Repr, DecidableEq

mutual
/-- Rust `Type`: the tagged union of all types.
`Interface` is inlined (fields, index signature, call signature);
`InterfaceField.range` is omitted (never read by the algebra);
`Named` carries the declaration's stable id instead of the `Rc<Object>`;
`Custom::WireSpec` is inlined as the single `custom` constructor's fields. -/
inductive Ty : Type where
  | basic (b : Basic)
  | array (elem : Ty)
  | interface (fields : List IField) (index : Option (Ty × Ty))
      (call : Option (List Ty × List Ty))
  | union (types : List Ty)
  | tuple (types : List Ty)
  | literal (l : Literal)
  | class_ (methods : List String)
  | enum_ (members : List EnumMember)
  | named (objId : Nat) (typeArguments : List Ty)
  | optional (inner : Ty)
  | this
  | generic (g : Generic)
  | validation (e : VExpr)
  | validated (typ : Ty) (expr : VExpr)
  | custom (location : WireLocation) (underlying : Ty)
      (nameOverride : Option String)

/-- Rust `Generic`: the unresolved/generic type forms. -/
inductive Generic : Type where
  | typeParam (idx : Nat) (constraint : Option Ty)
  | index (source index : Ty)
  | mapped (inType valueType : Ty) (optional : Option Bool)
  | mappedKeyType
  | keyof (t : Ty)
  | conditional (checkType extendsType trueType falseType : Ty)
  | intersection (x y : Ty)
  | inferred (n : Nat)

/-- Rust `InterfaceField` (minus its source range, which the algebra never reads). -/
inductive IField : Type where
  | mk (name : FieldName) (optional : Bool) (typ : Ty)
end

/-- Field-name accessor for `IField`. -/
def IField.name : IField → FieldName
  | .mk n _ _ => n

/-- Optional-flag accessor for `IField`. -/
def IField.optional : IField → Bool
  | .mk _ o _ => o

/-- Type accessor for `IField`. -/
def IField.typ : IField → Ty
  | .mk _ _ t => t

/-- Rust `EnumValue::to_literal` (the `as f64` cast modelled as the identity). -/
def EnumValue.to_literal : EnumValue → Literal
  | .string s => .string s
  | .number n => .number n

/-- Rust `EnumValue::to_type`. -/
def EnumValue.to_type (v : EnumValue) : Ty := .literal v.to_literal

/-- The lookup in the `HashMap` that `Interface::identical` builds from
`self`'s fields: keyed by field name, a duplicate name overwrites the
earlier entry, so the last field with the given name wins. -/
def lookupLastField (n : FieldName) : List IField → Option IField
  | [] => none
  | f :: rest =>
    match lookupLastField n rest with
    | some g => some g
    | none => if f.name = n then some f else none

theorem lookupLastField_mem : ∀ {n : FieldName} {fs : List IField} {f : IField},
    lookupLastField n fs = some f → f ∈ fs := by
  intro n fs
  induction fs with
  | nil => intro f h; simp [lookupLastField] at h
  | cons g rest ih =>
    intro f h
    simp only [lookupLastField] at h
    cases hr : lookupLastField n rest with
    | some g' =>
      rw [hr] at h
      cases h
      exact List.mem_cons_of_mem _ (ih hr)
    | none =>
      rw [hr] at h
      by_cases hn : g.name = n
      · simp only [hn, if_pos rfl] at h
        cases h
        exact List.mem_cons_self _ _
      · simp [hn] at h

theorem IField.sizeOf_typ_lt (f : IField) : sizeOf f.typ < sizeOf f := by
  cases f with | mk n o t => simp [IField.typ]

theorem lookupLastField_sizeOf {n : FieldName} {fs : List IField} {f : IField}
    (h : lookupLastField n fs = some f) : sizeOf f < sizeOf fs :=
  List.sizeOf_lt_of_mem (lookupLastField_mem h)

mutual
/-- Rust `Type::identical`.  `none` models a panic: `ClassType::identical` is
`todo!()`, so comparing two `Class` types aborts. -/
def identical : Ty → Ty → Option Bool
  | .basic a, .basic b => some (a == b)
  | .array a, .array b => identical a b
  | .interface sf si _, .interface of oi _ =>
    -- Interface::identical: length check, index presence check,
    -- per-name field comparison, then index signature comparison.
    if sf.length ≠ of.length then some false
    else if si.isSome ≠ oi.isSome then some false
    else
      match fieldsIdentical sf of with
      | none => none
      | some false => some false
      | some true => indexIdentical si oi
  | .union a, .union b => zipAllIdentical a b
  | .tuple a, .tuple b => zipAllIdentical a b
  | .literal a, .literal b => some (a == b)
  | .class_ _, .class_ _ => none
  | .named i1 a1, .named i2 a2 =>
    -- Named::identical
    if i1 ≠ i2 ∨ a1.length ≠ a2.length then some false
    else zipAllIdentical a1 a2
  | .optional a, .optional b => identical a b
  | .this, .this => some true
  | .generic a, .generic b => genericIdentical a b
  | .enum_ a, .enum_ b =>
    -- EnumType::identical: member-count check, then derived equality.
    some (if a.length ≠ b.length then false else a == b)
  | .custom l1 u1 n1, .custom l2 u2 n2 =>
    -- Custom::identical → WireSpec::identical
    if l1 == l2 && n1 == n2 then identical u1 u2 else some false
  | _, _ => some false
termination_by a _ => (sizeOf a, 0)
decreasing_by all_goals (simp_wf; exact Prod.Lex.left _ _ (by omega))

/-- The `iter().zip(..).all(|(a, b)| a.identical(b))` pattern used for
`Union`/`Tuple` members and `Named` type arguments: truncates at the
shorter list, short-circuits on the first `false`, propagates a panic. -/
def zipAllIdentical : List Ty → List Ty → Option Bool
  | [], _ => some true
  | _ :: _, [] => some true
  | a :: as_, b :: bs =>
    match identical a b with
    | none => none
    | some false => some false
    | some true => zipAllIdentical as_ bs
termination_by as_ _ => (sizeOf as_, 0)
decreasing_by all_goals (simp_wf; apply Prod.Lex.left; omega)

/-- The field loop of `Interface::identical` over `other`'s fields, with
`InterfaceField::identical` inlined (name, then type, then optional flag). -/
def fieldsIdentical (selfFields : List IField) : List IField → Option Bool
  | [] => some true
  | f :: rest =>
    match h : lookupLastField f.name selfFields with
    | none => some false
    | some sf =>
      if sf.name == f.name then
        match identical sf.typ f.typ with
        | none => none
        | some false => some false
        | some true =>
          if sf.optional == f.optional then fieldsIdentical selfFields rest
          else some false
      else some false
termination_by rest => (sizeOf selfFields, rest.length + 1)
decreasing_by
  all_goals simp_wf
  · apply Prod.Lex.left
    have h1 := lookupLastField_sizeOf h
    have h2 := IField.sizeOf_typ_lt sf
    omega
  · apply Prod.Lex.right
    omega

/-- The index-signature comparison at the end of `Interface::identical`. -/
def indexIdentical : Option (Ty × Ty) → Option (Ty × Ty) → Option Bool
  | some (sk, sv), some (ok, ov) =>
    (match identical sk ok with
     | none => none
     | some false => some false
     | some true => identical sv ov)
  | _, _ => some true
termination_by si _ => (sizeOf si, 0)
decreasing_by all_goals (simp_wf; apply Prod.Lex.left; omega)

/-- Rust `Generic::identical`: only `TypeParam` and `Mapped` pairs are compared;
every other pair of generic variants is `false`. -/
def genericIdentical : Generic → Generic → Option Bool
  | .typeParam i1 c1, .typeParam i2 c2 =>
    if i1 == i2 then
      match c1, c2 with
      | some a, some b => identical a b
      | none, none => some true
      | _, _ => some false
    else some false
  | .mapped in1 v1 _, .mapped in2 v2 _ =>
    (match identical in1 in2 with
     | none => none
     | some false => some false
     | some true => identical v1 v2)
  | _, _ => some false
termination_by a _ => (sizeOf a, 0)
decreasing_by all_goals (simp_wf; apply Prod.Lex.left; omega)
end

/-- The literal-widening arm of `Type::union_merge`: a literal merges with
the basic kind it belongs to (guard `*basic == lit.basic()`); `none` means
the arm does not apply and control falls through. -/
def basicLiteralMerge : Ty → Ty → Option Ty
  | .basic bk, .literal l => if bk == l.basic then some (.basic bk) else none
  | .literal l, .basic bk => if bk == l.basic then some (.basic bk) else none
  | _, _ => none

/-- Rust `Type::union_merge`.  The outer `Option` models a panic (reached
through `identical`); the inner `Option` is the source's return value:
`none` when the two types cannot be merged. -/
def union_merge (a b : Ty) : Option (Option Ty) :=
  match a, b with
  | .basic .any, _ => some (some (.basic .any))
  | _, .basic .any => some (some (.basic .any))
  | _, _ =>
    match basicLiteralMerge a b with
    | some t => some (some t)
    | none =>
      match a, b with
      | .validation e1, .validation e2 => some (some (.validation (e1.orE e2)))
      | .validated t e1, .validation e2 => some (some (.validated t (e1.orE e2)))
      | .validation e2, .validated t e1 => some (some (.validated t (e1.orE e2)))
      | _, _ =>
        match identical a b with
        | none => none
        | some true => some (some a)
        | some false => some none

/-- One element of `simplify_union`'s fold: try `union_merge` against each
accumulated result in order, replace the first that merges, else append. -/
def mergeIntoResults : List Ty → Ty → Option (List Ty)
  | [], t => some [t]
  | r :: rest, t =>
    match union_merge r t with
    | none => none
    | some (some u) => some (u :: rest)
    | some none =>
      match mergeIntoResults rest t with
      | none => none
      | some rest' => some (r :: rest')

/-- Rust `matches!(typ, Type::Basic(Basic::Never))`. -/
def isNever : Ty → Bool
  | .basic .never => true
  | _ => false

/-- The main loop of `simplify_union`: drop `Never` members, fold the rest
into the accumulated results. -/
def simplifyUnionLoop : List Ty → List Ty → Option (List Ty)
  | results, [] => some results
  | results, t :: ts =>
    if isNever t then simplifyUnionLoop results ts
    else
      match mergeIntoResults results t with
      | none => none
      | some results' => simplifyUnionLoop results' ts

/-- Rust `simplify_union`.  `none` models a panic reached through
`union_merge`/`identical`. -/
def simplify_union (types : List Ty) : Option Ty :=
  match simplifyUnionLoop [] types with
  | none => none
  | some [] => some (.basic .never)
  | some [t] => some t
  | some results => some (.union results)

mutual
/-- Rust `Type::iter_unions` / `into_iter_unions` (they yield the same
sequence): flatten nested unions, decompose `Optional(t)` into `t`'s
members followed by `Basic::Undefined`, strip `Validated` wrappers. -/
def iterUnions : Ty → List Ty
  | .union ts => iterUnionsList ts
  | .optional t => iterUnions t ++ [.basic .undefined]
  | .validated t _ => iterUnions t
  | t => [t]
termination_by t => sizeOf t

/-- Rust `iterUnions` mapped over a union's member list. -/
def iterUnionsList : List Ty → List Ty
  | [] => []
  | t :: ts => iterUnions t ++ iterUnionsList ts
termination_by ts => sizeOf ts
end

/-- Modelled from the spec: the resolution context.  `ctx i args` is
`underlying_named` applied to the declaration with stable id `i` and the
type arguments `args`; it is an arbitrary external function. -/
abbrev Ctx : Type := Nat → List Ty → Ty

/-- The `literal` closure inside `intersect`: is a literal compatible with
a basic kind? -/
def literalBasic (l : Literal) (b : Basic) : Bool :=
  match l, b with
  | .string _, .string | .string _, .any | .string _, .unknown => true
  | .boolean _, .boolean | .boolean _, .any | .boolean _, .unknown => true
  | .number _, .number | .number _, .any | .number _, .unknown => true
  | .bigInt _, .bigInt | .bigInt _, .any | .bigInt _, .unknown => true
  | _, _ => false

/-- Insertion into the `IndexMap<FieldName, Option<InterfaceField>>` built
from `y`'s fields in the interface arm of `intersect`: a duplicate key
keeps its original position but takes the new value. -/
def imInsert (k : FieldName) (v : Option IField) :
    List (FieldName × Option IField) → List (FieldName × Option IField)
  | [] => [(k, v)]
  | (k', v') :: rest =>
    if k' == k then (k', v) :: rest else (k', v') :: imInsert k v rest

/-- Rust `y.fields.into_iter().map(|f| (f.name.clone(), Some(f))).collect::<IndexMap<_, _>>()`. -/
def buildYFields (fs : List IField) : List (FieldName × Option IField) :=
  fs.foldl (fun m f => imInsert f.name (some f) m) []

/-- Rust `y_fields.get_mut(&field.name)` followed by `other.take()`: `none`
when the key is absent; otherwise the stored value together with the map
where that entry has been replaced by `None`. -/
def imLookupTake (n : FieldName) :
    List (FieldName × Option IField) →
    Option (Option IField × List (FieldName × Option IField))
  | [] => none
  | (k, v) :: rest =>
    if k == n then some (v, (k, none) :: rest)
    else
      match imLookupTake n rest with
      | none => none
      | some (v', rest') => some (v', (k, v) :: rest')

/-- The values still present in the `IndexMap` after the merge loop
(`for (_, other) in y_fields { if let Some(other) = other { .. } }`). -/
def imRemaining (m : List (FieldName × Option IField)) : List IField :=
  m.filterMap (fun p => p.2)

/-- The `filter_map` inside `intersect`'s `union_with` closure: intersect
each member with `b` (via `rec`, the recursive call of `intersect`),
dropping `Never` results; `none` propagates a panic. -/
def intersectMembersR (rec : Ty → Ty → Option Ty) : List Ty → Ty → Option (List Ty)
  | [], _ => some []
  | t :: ts, b =>
    match rec t b with
    | none => none
    | some (.basic .never) => intersectMembersR rec ts b
    | some u =>
      match intersectMembersR rec ts b with
      | none => none
      | some us => some (u :: us)

/-- The `union_with` closure inside `intersect`: distribute the flattened
members of `a` over `b`, drop `Never` results, canonicalize with
`simplify_union`. -/
def unionWithR (rec : Ty → Ty → Option Ty) (a b : Ty) : Option Ty :=
  match intersectMembersR rec (iterUnions a) b with
  | none => none
  | some l => simplify_union l

/-- Inner loop of the union × union cartesian product in `intersect`. -/
def intersectCartInnerR (rec : Ty → Ty → Option Ty) (t : Ty) : List Ty → Option (List Ty)
  | [] => some []
  | o :: os =>
    match rec t o with
    | none => none
    | some (.basic .never) => intersectCartInnerR rec t os
    | some u =>
      match intersectCartInnerR rec t os with
      | none => none
      | some us => some (u :: us)

/-- Outer loop of the union × union cartesian product in `intersect`. -/
def intersectCartesianR (rec : Ty → Ty → Option Ty) : List Ty → List Ty → Option (List Ty)
  | [], _ => some []
  | t :: ts, bs =>
    match intersectCartInnerR rec t bs with
    | none => none
    | some us =>
      match intersectCartesianR rec ts bs with
      | none => none
      | some rest => some (us ++ rest)

/-- The element-wise tuple × tuple loop of `intersect` (zip truncates to
the shorter tuple). -/
def intersectZipR (rec : Ty → Ty → Option Ty) : List Ty → List Ty → Option (List Ty)
  | a :: as_, b :: bs =>
    (match rec a b with
     | none => none
     | some u =>
       match intersectZipR rec as_ bs with
       | none => none
       | some us => some (u :: us))
  | _, _ => some []

/-- The loop over `x`'s fields in the interface arm of `intersect`:
fields shared with `y` get intersected types and ANDed optionality; a
duplicate name in `x` whose entry was already taken hits the
`.expect("field name should not appear twice")` panic (`none`). -/
def interfaceFieldsLoopR (rec : Ty → Ty → Option Ty) :
    List IField → List (FieldName × Option IField) →
    Option (List IField × List (FieldName × Option IField))
  | [], ym => some ([], ym)
  | f :: fs, ym =>
    match imLookupTake f.name ym with
    | none =>
      (match interfaceFieldsLoopR rec fs ym with
       | none => none
       | some (res, ym') => some (f :: res, ym'))
    | some (none, _) => none
    | some (some other, ym') =>
      match rec f.typ other.typ with
      | none => none
      | some t =>
        match interfaceFieldsLoopR rec fs ym' with
        | none => none
        | some (res, ym'') =>
          some (IField.mk f.name (f.optional && other.optional) t :: res, ym'')

/-- Rust `intersect(ctx, a, b)`: computes `a & b`.  `none` models a panic
(the `.expect("field name should not appear twice")` in the interface
arm, or a panic reached through `simplify_union`/`identical`) or fuel
exhaustion (the source can recurse forever through `underlying_named`;
fuel makes the model total — every recursive call runs at `fuel`).  The
non-fatal "intersection of call signature types not yet supported"
diagnostic is a write to the external sink and is elided; the code
proceeds with `call: None` as transcribed. -/
def intersect : Nat → Ctx → Ty → Ty → Option Ty
  | 0, _, _, _ => none
  | fuel + 1, ctx, a, b =>
    match a, b with
    -- T & unknown == T
    | .basic .unknown, _ => some b
    | _, .basic .unknown => some a
    -- T & any == any
    | .basic .any, _ => some (.basic .any)
    | _, .basic .any => some (.basic .any)
    -- T & never == never
    | .basic .never, _ => some (.basic .never)
    | _, .basic .never => some (.basic .never)
    | .basic x, .basic y =>
      some (if x == y then .basic x else .basic .never)
    -- Intersection distributes into unions.
    | .union x, .union y =>
      (match intersectCartesianR (intersect fuel ctx) x y with
       | none => none
       | some l => simplify_union l)
    | .union _, _ => unionWithR (intersect fuel ctx) a b
    | _, .union _ => unionWithR (intersect fuel ctx) b a
    -- Literals (the `if x == y` guard; on failure control falls through
    -- to the final catch-all, which yields `Never`).
    | .literal x, .literal y =>
      some (if x == y then .literal x else .basic .never)
    | .literal l, .basic x =>
      some (if literalBasic l x then .literal l else .basic .never)
    | .basic x, .literal l =>
      some (if literalBasic l x then .literal l else .basic .never)
    | .array x, .array y =>
      (match intersect fuel ctx x y with
       | none => none
       | some e => some (.array e))
    -- Array × Tuple: inspect only the tuple's first element.
    | .array x, .tuple ys =>
      (match ys with
       | [] => some (.array (.basic .never))
       | y0 :: _ =>
         match intersect fuel ctx x y0 with
         | none => none
         | some t => some (.array t))
    | .tuple ys, .array x =>
      (match ys with
       | [] => some (.array (.basic .never))
       | y0 :: _ =>
         match intersect fuel ctx x y0 with
         | none => none
         | some t => some (.array t))
    | .tuple x, .tuple y =>
      (match intersectZipR (intersect fuel ctx) x y with
       | none => none
       | some l => some (.tuple l))
    | .optional x, .optional y =>
      (match intersect fuel ctx x y with
       | none => none
       | some t => some (.optional t))
    -- Treat optional as "T | undefined" (the source passes the *inner*
    -- type `x.0` to `union_with`, so the `undefined` member is lost).
    | .optional x, _ => unionWithR (intersect fuel ctx) x b
    | _, .optional x => unionWithR (intersect fuel ctx) x a
    | .this, .this => some .this
    -- Combine validation expressions into a validated type.
    | .validated t e1, .validation e2 => some (.validated t (e1.andE e2))
    | .validation e1, .validated t e2 => some (.validated t (e1.andE e2))
    | .validation e1, .validation e2 => some (.validation (e1.andE e2))
    | _, .validation e => some (.validated a e)
    | .validation e, _ => some (.validated b e)
    | .generic _, _ => some (.generic (.intersection a b))
    | _, .generic _ => some (.generic (.intersection a b))
    | .class_ _, .class_ _ => some (.generic (.intersection a b))
    | .named i args, _ => intersect fuel ctx (ctx i args) b
    | _, .named i args => intersect fuel ctx a (ctx i args)
    | .interface xf xi _, .interface yf yi _ =>
      (match interfaceFieldsLoopR (intersect fuel ctx) xf (buildYFields yf) with
       | none => none
       | some (merged, ym) =>
         let fields := merged ++ imRemaining ym
         -- Transcribed as written: the comment in the source says "If we
         -- have any fields, ignore the index signature", but the code
         -- returns `None` when `fields` is empty and intersects the index
         -- signatures when it is non-empty.
         if fields.isEmpty then some (.interface fields none none)
         else
           match xi, yi with
           | some (xk, xv), some (yk, yv) =>
             (match intersect fuel ctx xk yk with
              | none => none
              | some key =>
                match intersect fuel ctx xv yv with
                | none => none
                | some value =>
                  some (.interface fields (some (key, value)) none))
           | some (k, v), none => some (.interface fields (some (k, v)) none)
           | none, some (k, v) => some (.interface fields (some (k, v)) none)
           | none, none => some (.interface fields none none))
    | .interface _ _ _, _ => some (.generic (.intersection a b))
    | _, .interface _ _ _ => some (.generic (.intersection a b))
    | _, _ => some (.basic .never)

/-- The tri-state verdict of `Type::assignable` (the source's
`Option<bool>`: `Some(true)` / `Some(false)` / `None`-for-indeterminate). -/
inductive Tri : Type where
  | yes | no | unknown
deriving Repr, DecidableEq

/-- The literal-vs-basic compatibility matrix shared by `assignable` and
`extends`. -/
def literalAssignableBasic (l : Literal) (b : Basic) : Bool :=
  match l, b with
  | _, .any => true
  | .string _, .string => true
  | .boolean _, .boolean => true
  | .number _, .number => true
  | .bigInt _, .bigInt => true
  | _, _ => false

/-- The lookup in the `HashMap<&str, &EnumValue>` built from an enum's
members (`Enum` arms of `assignable`/`extends`); a duplicate member name
overwrites the earlier entry. -/
def lookupEnumValue (n : String) : List EnumMember → Option EnumValue
  | [] => none
  | m :: rest =>
    match lookupEnumValue n rest with
    | some v => some v
    | none => if m.name = n then some m.value else none

/-- The `Enum` × `Enum` member loop of `assignable`/`extends`: every
member of `other` must exist in `self` with an equal value. -/
def enumMembersMatch (selfMembers : List EnumMember) : List EnumMember → Bool
  | [] => true
  | m :: rest =>
    match lookupEnumValue m.name selfMembers with
    | some v => if v == m.value then enumMembersMatch selfMembers rest else false
    | none => false

/-- The `Tuple` × `Tuple` loop of `assignable`: pairwise assignability
with a `found_none` flag (`Some(false)` short-circuits; indeterminate
elements make the verdict indeterminate). -/
def assignableZipR (rec : Ty → Ty → Option Tri) :
    List Ty → List Ty → Bool → Option Tri
  | [], _, foundNone => some (if foundNone then .unknown else .yes)
  | _, [], foundNone => some (if foundNone then .unknown else .yes)
  | a :: as_, b :: bs, foundNone =>
    match rec a b with
    | none => none
    | some .yes => assignableZipR rec as_ bs foundNone
    | some .no => some .no
    | some .unknown => assignableZipR rec as_ bs true

/-- The `Tuple` × `Array` loop of `assignable`: every tuple element must
be assignable to the array's element type; an indeterminate element
returns indeterminate immediately. -/
def assignableAllR (rec : Ty → Ty → Option Tri) (elemTy : Ty) :
    List Ty → Option Tri
  | [] => some .yes
  | t :: ts =>
    match rec t elemTy with
    | none => none
    | some .yes => assignableAllR rec elemTy ts
    | some .no => some .no
    | some .unknown => some .unknown

/-- The `Enum` × `Interface` field loop of `assignable`, transcribed as
written: a string-named field whose name matches no enum member is
silently skipped (there is no `else` branch in the source), and
symbol-named fields are skipped as well. -/
def enumIfaceLoopR (rec : Ty → Ty → Option Tri) (selfMembers : List EnumMember) :
    List IField → Bool → Option Tri
  | [], foundNone => some (if foundNone then .unknown else .yes)
  | f :: rest, foundNone =>
    match f.name with
    | .symbol _ => enumIfaceLoopR rec selfMembers rest foundNone
    | .string n =>
      match lookupEnumValue n selfMembers with
      | none => enumIfaceLoopR rec selfMembers rest foundNone
      | some v =>
        match rec v.to_type f.typ with
        | none => none
        | some .yes => enumIfaceLoopR rec selfMembers rest foundNone
        | some .no => some .no
        | some .unknown => enumIfaceLoopR rec selfMembers rest true

/-- The `Interface` × `Interface` field loop of `assignable`: every field
of `other` must exist in `self` (by name, last duplicate winning) with an
assignable type; a missing field is `Some(false)`. -/
def ifaceFieldsAssignR (rec : Ty → Ty → Option Tri) (selfFields : List IField) :
    List IField → Bool → Option Tri
  | [], foundNone => some (if foundNone then .unknown else .yes)
  | f :: rest, foundNone =>
    match lookupLastField f.name selfFields with
    | none => some .no
    | some sf =>
      match rec sf.typ f.typ with
      | none => none
      | some .yes => ifaceFieldsAssignR rec selfFields rest foundNone
      | some .no => some .no
      | some .unknown => ifaceFieldsAssignR rec selfFields rest true

/-- The inner loop of `assignable`'s `Union`-target arm: does `t` match
any member of `other`?  (`found_none` tracks indeterminate members.) -/
def assignUnionInnerR (rec : Ty → Ty → Option Tri) (t : Ty) :
    List Ty → Bool → Option Tri
  | [], foundNone => some (if foundNone then .unknown else .no)
  | o :: os, foundNone =>
    match rec t o with
    | none => none
    | some .yes => some .yes
    | some .no => assignUnionInnerR rec t os foundNone
    | some .unknown => assignUnionInnerR rec t os true

/-- The outer loop of `assignable`'s `Union`-target arm (`'ThisLoop`):
every flattened member of `self` must find a match; the first member
without one decides the verdict. -/
def assignUnionOuterR (rec : Ty → Ty → Option Tri) (others : List Ty) :
    List Ty → Option Tri
  | [] => some .yes
  | t :: ts =>
    match assignUnionInnerR rec t others false with
    | none => none
    | some .yes => assignUnionOuterR rec others ts
    | some r => some r

/-- Rust `Type::assignable`: is `self` assignable to `other`?  `some .unknown`
is the source's `None` (indeterminate); the outer `none` models a panic
(reached through `identical` in the final fallback) or fuel exhaustion
(the source can recurse forever through `underlying_named`, or through
its `(_, Type::Validated(v))` arm, which recurses with `other`
unchanged).  Every recursive call runs at `fuel`. -/
def assignable : Nat → Ctx → Ty → Ty → Option Tri
  | 0, _, _, _ => none
  | fuel + 1, ctx, a, b =>
    match a, b with
    | _, .basic .any => some .yes
    | _, .basic .never => some .no
    | .generic _, _ => some .unknown
    | _, .generic _ => some .unknown
    -- Unwrap named types.
    | .named i args, _ => assignable fuel ctx (ctx i args) b
    | _, .named i args => assignable fuel ctx a (ctx i args)
    | .basic x, .basic y => some (if x == y then .yes else .no)
    | .literal l, .basic x =>
      some (if literalAssignableBasic l x then .yes else .no)
    | .validated t _, _ => assignable fuel ctx t b
    | _, .validated t e =>
      -- Transcribed as written: `v.typ.assignable(state, other)` with
      -- `other` still the whole `Validated` type.
      assignable fuel ctx t (.validated t e)
    | _, .optional o =>
      (match a with
       | .basic .undefined => some .yes
       | _ => assignable fuel ctx a o)
    | .tuple ts, .tuple os =>
      if ts.length ≠ os.length then some .no
      else assignableZipR (assignable fuel ctx) ts os false
    | .tuple ts, .array e => assignableAllR (assignable fuel ctx) e ts
    | .tuple _, _ => some .no
    | .enum_ ms, .enum_ os => some (if enumMembersMatch ms os then .yes else .no)
    | .enum_ ms, .interface ofs _ _ => enumIfaceLoopR (assignable fuel ctx) ms ofs false
    | .enum_ _, _ => some .no
    | .interface sfs _ _, .interface ofs _ _ =>
      ifaceFieldsAssignR (assignable fuel ctx) sfs ofs false
    | .interface _ _ _, _ => some .no
    | _, .union os => assignUnionOuterR (assignable fuel ctx) os (iterUnions a)
    | _, _ =>
      match identical a b with
      | none => none
      | some v => some (if v then .yes else .no)

/-- The result of `Type::extends`: `Yes` carries the inferred-slot
bindings `(slot, type)` discovered during the descent. -/
inductive ExtendsR : Type where
  | yes (bindings : List (Nat × Ty))
  | no
  | unknown

/-- The `Tuple` × `Tuple` loop of `extends`: pairwise, accumulating
bindings, with a `found_unknown` flag; `No` short-circuits. -/
def extendsZipR (recE : Ty → Ty → Option ExtendsR) :
    List Ty → List Ty → Bool → List (Nat × Ty) → Option ExtendsR
  | [], _, foundUnknown, inferred =>
    some (if foundUnknown then .unknown else .yes inferred)
  | _, [], foundUnknown, inferred =>
    some (if foundUnknown then .unknown else .yes inferred)
  | a :: as_, b :: bs, foundUnknown, inferred =>
    match recE a b with
    | none => none
    | some (.yes inf) => extendsZipR recE as_ bs foundUnknown (inferred ++ inf)
    | some .no => some .no
    | some .unknown => extendsZipR recE as_ bs true inferred

/-- The collection loop of the `Tuple` × `Array` arm of `extends`:
concatenates the bindings of every element; `No`/`Unknown` return
immediately. -/
def extendsArrayLoopR (recE : Ty → Ty → Option ExtendsR) (elemTy : Ty) :
    List Ty → Option ExtendsR
  | [] => some (.yes [])
  | t :: ts =>
    match recE t elemTy with
    | none => none
    | some (.yes inf) =>
      (match extendsArrayLoopR recE elemTy ts with
       | none => none
       | some (.yes rest) => some (.yes (inf ++ rest))
       | some r => some r)
    | some .no => some .no
    | some .unknown => some .unknown

/-- Stable insertion on the slot index, modelling `Vec::sort_by_key`
(which is a stable sort: equal keys keep their relative order). -/
def insertByKey (p : Nat × Ty) : List (Nat × Ty) → List (Nat × Ty)
  | [] => [p]
  | q :: qs => if q.1 ≤ p.1 then q :: insertByKey p qs else p :: q :: qs

/-- Rust `inferred.sort_by_key(|(idx, _)| *idx)` as a stable insertion sort. -/
def sortByKey (l : List (Nat × Ty)) : List (Nat × Ty) :=
  l.foldl (fun acc p => insertByKey p acc) []

/-- Rust `itertools::chunk_by` on the slot index: group consecutive bindings
with equal slots. -/
def chunkByKey : List (Nat × Ty) → List (Nat × List Ty)
  | [] => []
  | (i, t) :: rest =>
    match chunkByKey rest with
    | [] => [(i, [t])]
    | (j, ts) :: groups =>
      if i = j then (i, t :: ts) :: groups else (i, [t]) :: (j, ts) :: groups

/-- Per-group `simplify_union` over the grouped bindings of the
`Tuple` × `Array` arm of `extends`. -/
def combineInferred : List (Nat × List Ty) → Option (List (Nat × Ty))
  | [] => some []
  | (i, ts) :: rest =>
    match simplify_union ts with
    | none => none
    | some u =>
      match combineInferred rest with
      | none => none
      | some rs => some ((i, u) :: rs)

/-- The `Enum` × `Interface` field loop of `extends` (same structure as
the `assignable` one — it calls `assignable` on the member's literal type
— but indeterminate fields yield `Unknown`). -/
def enumIfaceExtendsLoopR (recA : Ty → Ty → Option Tri)
    (selfMembers : List EnumMember) : List IField → Bool → Option ExtendsR
  | [], foundNone => some (if foundNone then .unknown else .yes [])
  | f :: rest, foundNone =>
    match f.name with
    | .symbol _ => enumIfaceExtendsLoopR recA selfMembers rest foundNone
    | .string n =>
      match lookupEnumValue n selfMembers with
      | none => enumIfaceExtendsLoopR recA selfMembers rest foundNone
      | some v =>
        match recA v.to_type f.typ with
        | none => none
        | some .yes => enumIfaceExtendsLoopR recA selfMembers rest foundNone
        | some .no => some .no
        | some .unknown => enumIfaceExtendsLoopR recA selfMembers rest true

/-- The `Interface` × `Interface` field loop of `extends`: every field of
`other` must exist in `self` with an extending type; bindings are
accumulated. -/
def ifaceFieldsExtendsR (recE : Ty → Ty → Option ExtendsR)
    (selfFields : List IField) :
    List IField → Bool → List (Nat × Ty) → Option ExtendsR
  | [], foundUnknown, inferred =>
    some (if foundUnknown then .unknown else .yes inferred)
  | f :: rest, foundUnknown, inferred =>
    match lookupLastField f.name selfFields with
    | none => some .no
    | some sf =>
      match recE sf.typ f.typ with
      | none => none
      | some (.yes inf) =>
        ifaceFieldsExtendsR recE selfFields rest foundUnknown (inferred ++ inf)
      | some .no => some .no
      | some .unknown => ifaceFieldsExtendsR recE selfFields rest true inferred

/-- The inner loop of `extends`' `Union`-target arm over `other`'s
members, returning (`found_yes`, `found_unknown`, collected bindings).
Unlike `assignable`, the source keeps iterating after a `Yes`. -/
def extUnionInnerR (recE : Ty → Ty → Option ExtendsR) (t : Ty) :
    List Ty → Option (Bool × Bool × List (Nat × Ty))
  | [] => some (false, false, [])
  | o :: os =>
    match recE t o with
    | none => none
    | some (.yes inf) =>
      (match extUnionInnerR recE t os with
       | none => none
       | some (_, u, l) => some (true, u, inf ++ l))
    | some .no => extUnionInnerR recE t os
    | some .unknown =>
      (match extUnionInnerR recE t os with
       | none => none
       | some (y, _, l) => some (y, true, l))

/-- The outer loop of `extends`' `Union`-target arm over the flattened
members of `self`. -/
def extUnionOuterR (recE : Ty → Ty → Option ExtendsR) (others : List Ty) :
    List Ty → Option (Bool × Bool × List (Nat × Ty))
  | [] => some (false, false, [])
  | t :: ts =>
    match extUnionInnerR recE t others with
    | none => none
    | some (y1, u1, l1) =>
      match extUnionOuterR recE others ts with
      | none => none
      | some (y2, u2, l2) => some (y1 || y2, u1 || u2, l1 ++ l2)

/-- Rust `Type::extends`: like `assignable`, but an `Inferred(slot)` target
always succeeds and records a binding, and bindings are threaded up.
`none` models a panic or fuel exhaustion (see `assignable`); every
recursive call runs at `fuel`. -/
def extends_ : Nat → Ctx → Ty → Ty → Option ExtendsR
  | 0, _, _, _ => none
  | fuel + 1, ctx, a, b =>
    match a, b with
    | _, .generic (.inferred i) => some (.yes [(i, a)])
    | _, .basic .any => some (.yes [])
    | _, .basic .never => some .no
    | .generic _, _ => some .unknown
    | _, .generic _ => some .unknown
    -- Unwrap named types.
    | .named i args, _ => extends_ fuel ctx (ctx i args) b
    | _, .named i args => extends_ fuel ctx a (ctx i args)
    | .basic x, .basic y => some (if x == y then .yes [] else .no)
    | .literal l, .basic x =>
      some (if literalAssignableBasic l x then .yes [] else .no)
    | .validated t _, _ => extends_ fuel ctx t b
    | _, .validated t e =>
      -- Transcribed as written (same recursion quirk as `assignable`).
      extends_ fuel ctx t (.validated t e)
    | _, .optional o =>
      (match a with
       | .basic .undefined => some (.yes [])
       | _ => extends_ fuel ctx a o)
    | .tuple ts, .tuple os =>
      if ts.length ≠ os.length then some .no
      else extendsZipR (extends_ fuel ctx) ts os false []
    | .tuple ts, .array e =>
      (match extendsArrayLoopR (extends_ fuel ctx) e ts with
       | none => none
       | some (.yes inferred) =>
         -- Group multiple bindings for the same slot and union them.
         (match combineInferred (chunkByKey (sortByKey inferred)) with
          | none => none
          | some combined => some (.yes combined))
       | some r => some r)
    | .tuple _, _ => some .no
    | .enum_ ms, .enum_ os => some (if enumMembersMatch ms os then .yes [] else .no)
    | .enum_ ms, .interface ofs _ _ =>
      enumIfaceExtendsLoopR (assignable fuel ctx) ms ofs false
    | .enum_ _, _ => some .no
    | .interface sfs _ _, .interface ofs _ _ =>
      ifaceFieldsExtendsR (extends_ fuel ctx) sfs ofs false []
    | .interface _ _ _, _ => some .no
    | _, .union os =>
      (match extUnionOuterR (extends_ fuel ctx) os (iterUnions a) with
       | none => none
       | some (foundYes, foundUnknown, inferred) =>
         some (if foundYes then .yes inferred
               else if foundUnknown then .unknown
               else .no))
    | _, _ =>
      match identical a b with
      | none => none
      | some v => some (if v then .yes [] else .no)

/-- Rust `unwrap_validated`: strip one `Validated` layer. -/
def unwrap_validated (typ : Ty) : Ty × Option VExpr :=
  match typ with
  | .validated t e => (t, some e)
  | _ => (typ, none)

/-- Pairwise-distinct field names of an interface (decidable). -/
def fieldNamesNodup : List IField → Bool
  | [] => true
  | f :: fs => !(fs.any (fun g => g.name == f.name)) && fieldNamesNodup fs

mutual
/-- The fragment of the type model on which `identical` is reflexive: no
`Class` (its `identical` is `todo!()` and panics), no
`Validation`/`Validated` (they fall to `identical`'s catch-all, which is
`false`), only the `TypeParam`/`Mapped` generic variants (the others fall
to `Generic::identical`'s catch-all), and interfaces with pairwise
distinct field names (on a duplicate name the by-name lookup compares two
different fields).  Only positions `identical` traverses are constrained;
call signatures are never compared. -/
def identSafe : Ty → Bool
  | .basic _ => true
  | .array t => identSafe t
  | .interface fs idx _ =>
    identSafeFields fs && fieldNamesNodup fs &&
      (match idx with
       | some (k, v) => identSafe k && identSafe v
       | none => true)
  | .union ts => identSafeList ts
  | .tuple ts => identSafeList ts
  | .literal _ => true
  | .class_ _ => false
  | .enum_ _ => true
  | .named _ args => identSafeList args
  | .optional t => identSafe t
  | .this => true
  | .generic (.typeParam _ (some c)) => identSafe c
  | .generic (.typeParam _ none) => true
  | .generic (.mapped i v _) => identSafe i && identSafe v
  | .generic _ => false
  | .validation _ => false
  | .validated _ _ => false
  | .custom _ u _ => identSafe u
termination_by t => sizeOf t
decreasing_by all_goals (simp_wf; try omega)

/-- Rust `identSafe` over a list of types. -/
def identSafeList : List Ty → Bool
  | [] => true
  | t :: ts => identSafe t && identSafeList ts
termination_by ts => sizeOf ts
decreasing_by all_goals (simp_wf; try omega)

/-- Rust `identSafe` over the types of a list of interface fields. -/
def identSafeFields : List IField → Bool
  | [] => true
  | .mk _ _ t :: fs => identSafe t && identSafeFields fs
termination_by fs => sizeOf fs
decreasing_by all_goals (simp_wf; try omega)
end

mutual
/-- Left operands on which `identical` cannot reach the
`ClassType::identical` panic: no `Class` constructor in any position that
`identical` recurses into on its left-hand side. -/
def classFree : Ty → Bool
  | .basic _ => true
  | .array t => classFree t
  | .interface fs idx _ =>
    classFreeFields fs &&
      (match idx with
       | some (k, v) => classFree k && classFree v
       | none => true)
  | .union ts => classFreeList ts
  | .tuple ts => classFreeList ts
  | .literal _ => true
  | .class_ _ => false
  | .enum_ _ => true
  | .named _ args => classFreeList args
  | .optional t => classFree t
  | .this => true
  | .generic (.typeParam _ (some c)) => classFree c
  | .generic (.typeParam _ none) => true
  | .generic (.mapped i v _) => classFree i && classFree v
  | .generic _ => true
  | .validation _ => true
  | .validated _ _ => true
  | .custom _ u _ => classFree u
termination_by t => sizeOf t
decreasing_by all_goals (simp_wf; try omega)

/-- Rust `classFree` over a list of types. -/
def classFreeList : List Ty → Bool
  | [] => true
  | t :: ts => classFree t && classFreeList ts
termination_by ts => sizeOf ts
decreasing_by all_goals (simp_wf; try omega)

/-- Rust `classFree` over the types of a list of interface fields. -/
def classFreeFields : List IField → Bool
  | [] => true
  | .mk _ _ t :: fs => classFree t && classFreeFields fs
termination_by fs => sizeOf fs
decreasing_by all_goals (simp_wf; try omega)
end

/-- A concrete resolution context used for closed counterexamples and
witnesses (the arms they exercise never consult the context). -/
def ctx0 : Ctx := fun _ _ => .basic .any

theorem identSafeList_mem {ts : List Ty} (h : identSafeList ts = true) :
    ∀ {t : Ty}, t ∈ ts → identSafe t = true := by
  induction ts with
  | nil => intro t ht; simp at ht
  | cons x xs ih =>
    intro t ht
    simp only [identSafeList, Bool.and_eq_true] at h
    rcases List.mem_cons.mp ht with rfl | hm
    · exact h.1
    · exact ih h.2 hm

theorem identSafeFields_mem {fs : List IField} (h : identSafeFields fs = true) :
    ∀ {f : IField}, f ∈ fs → identSafe f.typ = true := by
  induction fs with
  | nil => intro f hf; simp at hf
  | cons g rest ih =>
    intro f hf
    cases g with
    | mk gn go gt =>
      simp only [identSafeFields, Bool.and_eq_true] at h
      rcases List.mem_cons.mp hf with rfl | hm
      · exact h.1
      · exact ih h.2 hm

theorem zipAllIdentical_refl {ts : List Ty}
    (h : ∀ t ∈ ts, identical t t = some true) :
    zipAllIdentical ts ts = some true := by
  induction ts with
  | nil => simp [zipAllIdentical]
  | cons x xs ih =>
    simp only [zipAllIdentical]
    rw [h x (List.mem_cons_self x xs)]
    exact ih (fun t ht => h t (List.mem_cons_of_mem _ ht))

theorem lookupLastField_eq_none {n : FieldName} {fs : List IField}
    (h : fs.any (fun g => g.name == n) = false) : lookupLastField n fs = none := by
  induction fs with
  | nil => simp [lookupLastField]
  | cons g rest ih =>
    simp only [List.any_cons, Bool.or_eq_false_iff] at h
    simp only [lookupLastField]
    rw [ih h.2]
    simp only [beq_eq_false_iff_ne, ne_eq] at h
    simp [h.1]

theorem lookupLastField_self {fs : List IField} (hnd : fieldNamesNodup fs = true) :
    ∀ {f : IField}, f ∈ fs → lookupLastField f.name fs = some f := by
  induction fs with
  | nil => intro f hf; simp at hf
  | cons g rest ih =>
    intro f hf
    simp only [fieldNamesNodup, Bool.and_eq_true, Bool.not_eq_true'] at hnd
    rcases List.mem_cons.mp hf with rfl | hm
    · simp only [lookupLastField]
      rw [lookupLastField_eq_none hnd.1]
      simp
    · simp only [lookupLastField]
      rw [ih hnd.2 hm]

theorem fieldsIdentical_refl {fs : List IField} :
    ∀ {others : List IField},
    (∀ f ∈ others, lookupLastField f.name fs = some f) →
    (∀ f ∈ others, identical f.typ f.typ = some true) →
    fieldsIdentical fs others = some true := by
  intro others
  induction others with
  | nil => intro _ _; simp [fieldsIdentical]
  | cons f rest ih =>
    intro hlk hid
    simp only [fieldsIdentical]
    rw [hlk f (List.mem_cons_self f rest)]
    simp only [beq_self_eq_true, if_true]
    rw [hid f (List.mem_cons_self f rest)]
    simp only [beq_self_eq_true, if_true]
    exact ih (fun g hg => hlk g (List.mem_cons_of_mem _ hg))
      (fun g hg => hid g (List.mem_cons_of_mem _ hg))

theorem identical_refl_of_safe :
    ∀ (n : Nat) (t : Ty), sizeOf t ≤ n → identSafe t = true →
    identical t t = some true := by
  intro n
  induction n using Nat.strong_induction_on with
  | _ n IH =>
    intro t hn hs
    match t with
    | .basic b => simp [identical]
    | .literal l => simp [identical]
    | .this => simp [identical]
    | .enum_ ms => simp [identical]
    | .class_ ms => simp [identSafe] at hs
    | .validation e => simp [identSafe] at hs
    | .validated t' e => simp [identSafe] at hs
    | .array t' =>
      simp only [identSafe] at hs
      have hlt : sizeOf t' < n := by simp at hn; omega
      simp only [identical]
      exact IH (sizeOf t') hlt t' le_rfl hs
    | .optional t' =>
      simp only [identSafe] at hs
      have hlt : sizeOf t' < n := by simp at hn; omega
      simp only [identical]
      exact IH (sizeOf t') hlt t' le_rfl hs
    | .custom l u no =>
      simp only [identSafe] at hs
      have hlt : sizeOf u < n := by simp at hn; omega
      simp only [identical, beq_self_eq_true, Bool.and_self, if_true]
      exact IH (sizeOf u) hlt u le_rfl hs
    | .union ts =>
      simp only [identSafe] at hs
      simp only [identical]
      refine zipAllIdentical_refl (fun x hx => ?_)
      have hlt : sizeOf x < n := by
        have := List.sizeOf_lt_of_mem hx
        simp at hn; omega
      exact IH (sizeOf x) hlt x le_rfl (identSafeList_mem hs hx)
    | .tuple ts =>
      simp only [identSafe] at hs
      simp only [identical]
      refine zipAllIdentical_refl (fun x hx => ?_)
      have hlt : sizeOf x < n := by
        have := List.sizeOf_lt_of_mem hx
        simp at hn; omega
      exact IH (sizeOf x) hlt x le_rfl (identSafeList_mem hs hx)
    | .named i args =>
      simp only [identSafe] at hs
      simp only [identical, ne_eq, not_true_eq_false, false_or, or_self, if_false]
      refine zipAllIdentical_refl (fun x hx => ?_)
      have hlt : sizeOf x < n := by
        have := List.sizeOf_lt_of_mem hx
        simp at hn; omega
      exact IH (sizeOf x) hlt x le_rfl (identSafeList_mem hs hx)
    | .generic (.typeParam i none) => simp [identical, genericIdentical]
    | .generic (.typeParam i (some c)) =>
      simp only [identSafe] at hs
      have hlt : sizeOf c < n := by simp at hn; omega
      simp only [identical, genericIdentical, beq_self_eq_true, if_true]
      exact IH (sizeOf c) hlt c le_rfl hs
    | .generic (.mapped a b o) =>
      simp only [identSafe, Bool.and_eq_true] at hs
      have hlta : sizeOf a < n := by simp at hn; omega
      have hltb : sizeOf b < n := by simp at hn; omega
      simp only [identical, genericIdentical]
      rw [IH (sizeOf a) hlta a le_rfl hs.1]
      exact IH (sizeOf b) hltb b le_rfl hs.2
    | .generic (.index s ix) => simp [identSafe] at hs
    | .generic .mappedKeyType => simp [identSafe] at hs
    | .generic (.keyof t') => simp [identSafe] at hs
    | .generic (.conditional a b c d) => simp [identSafe] at hs
    | .generic (.intersection x y) => simp [identSafe] at hs
    | .generic (.inferred i) => simp [identSafe] at hs
    | .interface fs idx call =>
      rw [identSafe.eq_def] at hs
      simp only [Bool.and_eq_true] at hs
      obtain ⟨⟨hsf, hnd⟩, hidx⟩ := hs
      simp only [identical, ne_eq, not_true_eq_false, if_false]
      have hflds : fieldsIdentical fs fs = some true := by
        refine fieldsIdentical_refl (fun f hf => lookupLastField_self hnd hf)
          (fun f hf => ?_)
        have hlt : sizeOf f.typ < n := by
          have h1 := List.sizeOf_lt_of_mem hf
          have h2 := IField.sizeOf_typ_lt f
          simp at hn; omega
        exact IH (sizeOf f.typ) hlt f.typ le_rfl (identSafeFields_mem hsf hf)
      rw [hflds]
      match idx, hidx with
      | none, _ => simp [indexIdentical]
      | some (k, v), hidx =>
        simp only [Bool.and_eq_true] at hidx
        have hltk : sizeOf k < n := by simp at hn; omega
        have hltv : sizeOf v < n := by simp at hn; omega
        simp only [indexIdentical]
        rw [IH (sizeOf k) hltk k le_rfl hidx.1]
        exact IH (sizeOf v) hltv v le_rfl hidx.2

theorem classFreeList_mem {ts : List Ty} (h : classFreeList ts = true) :
    ∀ {t : Ty}, t ∈ ts → classFree t = true := by
  induction ts with
  | nil => intro t ht; simp at ht
  | cons x xs ih =>
    intro t ht
    simp only [classFreeList, Bool.and_eq_true] at h
    rcases List.mem_cons.mp ht with rfl | hm
    · exact h.1
    · exact ih h.2 hm

theorem classFreeFields_mem {fs : List IField} (h : classFreeFields fs = true) :
    ∀ {f : IField}, f ∈ fs → classFree f.typ = true := by
  induction fs with
  | nil => intro f hf; simp at hf
  | cons g rest ih =>
    intro f hf
    cases g with
    | mk gn go gt =>
      simp only [classFreeFields, Bool.and_eq_true] at h
      rcases List.mem_cons.mp hf with rfl | hm
      · exact h.1
      · exact ih h.2 hm

theorem zipAllIdentical_isSome {xs : List Ty}
    (h : ∀ x ∈ xs, ∀ u : Ty, (identical x u).isSome = true) :
    ∀ ys, (zipAllIdentical xs ys).isSome = true := by
  induction xs with
  | nil => intro ys; cases ys <;> simp [zipAllIdentical]
  | cons x xs ih =>
    intro ys
    cases ys with
    | nil => simp [zipAllIdentical]
    | cons y ys =>
      simp only [zipAllIdentical]
      have hx := h x (List.mem_cons_self x xs) y
      cases hxv : identical x y with
      | none => rw [hxv] at hx; simp at hx
      | some v =>
        cases v
        · simp
        · exact ih (fun t ht u => h t (List.mem_cons_of_mem _ ht) u) ys

theorem fieldsIdentical_isSome {fs : List IField}
    (h : ∀ f ∈ fs, ∀ u : Ty, (identical f.typ u).isSome = true) :
    ∀ others, (fieldsIdentical fs others).isSome = true := by
  intro others
  induction others with
  | nil => simp [fieldsIdentical]
  | cons f rest ih =>
    simp only [fieldsIdentical]
    cases hlk : lookupLastField f.name fs with
    | none => simp
    | some sf =>
      have hsf := h sf (lookupLastField_mem hlk) f.typ
      by_cases hname : (sf.name == f.name) = true
      · simp only [hname, if_true]
        cases hv : identical sf.typ f.typ with
        | none => rw [hv] at hsf; simp at hsf
        | some v =>
          cases v
          · simp
          · by_cases hopt : (sf.optional == f.optional) = true
            · simp only [hopt, if_true]
              exact ih
            · simp [hopt]
      · simp [hname]

theorem genericIdentical_typeParam (i j : Nat) (c c2 : Option Ty) :
    genericIdentical (.typeParam i c) (.typeParam j c2) =
      if i == j then
        match c, c2 with
        | some a, some b => identical a b
        | none, none => some true
        | _, _ => some false
      else some false := by
  rw [genericIdentical.eq_def]

theorem genericIdentical_mapped (a1 b1 a2 b2 : Ty) (o1 o2 : Option Bool) :
    genericIdentical (.mapped a1 b1 o1) (.mapped a2 b2 o2) =
      (match identical a1 a2 with
       | none => none
       | some false => some false
       | some true => identical b1 b2) := by
  rw [genericIdentical.eq_def]

theorem identical_isSome_of_classFree :
    ∀ (n : Nat) (a : Ty), sizeOf a ≤ n → classFree a = true →
    ∀ b : Ty, (identical a b).isSome = true := by
  intro n
  induction n using Nat.strong_induction_on with
  | _ n IH =>
    intro a hn hcf b
    match a with
    | .basic x => cases b <;> simp [identical]
    | .literal l => cases b <;> simp [identical]
    | .this => cases b <;> simp [identical]
    | .enum_ ms => cases b <;> simp [identical]
    | .validation e => cases b <;> simp [identical]
    | .validated t' e => cases b <;> simp [identical]
    | .class_ ms => simp [classFree] at hcf
    | .array t' =>
      have hsub : classFree t' = true := by
        rw [classFree.eq_def] at hcf; exact hcf
      have hlt : sizeOf t' < n := by simp at hn; omega
      cases b
      case array y =>
        simp only [identical]
        exact IH (sizeOf t') hlt t' le_rfl hsub y
      all_goals simp [identical]
    | .optional t' =>
      have hsub : classFree t' = true := by
        rw [classFree.eq_def] at hcf; exact hcf
      have hlt : sizeOf t' < n := by simp at hn; omega
      cases b
      case optional y =>
        simp only [identical]
        exact IH (sizeOf t') hlt t' le_rfl hsub y
      all_goals simp [identical]
    | .custom l u no =>
      have hsub : classFree u = true := by
        rw [classFree.eq_def] at hcf; exact hcf
      have hlt : sizeOf u < n := by simp at hn; omega
      cases b
      case custom l2 u2 no2 =>
        simp only [identical]
        split
        · exact IH (sizeOf u) hlt u le_rfl hsub u2
        · simp
      all_goals simp [identical]
    | .union ts =>
      have hsub : classFreeList ts = true := by
        rw [classFree.eq_def] at hcf; exact hcf
      cases b
      case union ys =>
        simp only [identical]
        exact zipAllIdentical_isSome
          (fun x hx u => IH (sizeOf x)
            (by have := List.sizeOf_lt_of_mem hx; simp at hn; omega)
            x le_rfl (classFreeList_mem hsub hx) u) ys
      all_goals simp [identical]
    | .tuple ts =>
      have hsub : classFreeList ts = true := by
        rw [classFree.eq_def] at hcf; exact hcf
      cases b
      case tuple ys =>
        simp only [identical]
        exact zipAllIdentical_isSome
          (fun x hx u => IH (sizeOf x)
            (by have := List.sizeOf_lt_of_mem hx; simp at hn; omega)
            x le_rfl (classFreeList_mem hsub hx) u) ys
      all_goals simp [identical]
    | .named i args =>
      have hsub : classFreeList args = true := by
        rw [classFree.eq_def] at hcf; exact hcf
      cases b
      case named j args2 =>
        simp only [identical]
        split
        · simp
        · exact zipAllIdentical_isSome
            (fun x hx u => IH (sizeOf x)
              (by have := List.sizeOf_lt_of_mem hx; simp at hn; omega)
              x le_rfl (classFreeList_mem hsub hx) u) args2
      all_goals simp [identical]
    | .generic g =>
      cases b
      case generic h' =>
        simp only [identical]
        match g with
        | .typeParam i c =>
          cases h'
          case typeParam j c2 =>
            rw [genericIdentical_typeParam]
            split
            · match c, c2 with
              | none, none => simp
              | none, some y => simp
              | some x, none => simp
              | some x, some y =>
                have hsub : classFree x = true := by
                  rw [classFree.eq_def] at hcf; exact hcf
                have hlt : sizeOf x < n := by simp at hn; omega
                simpa using IH (sizeOf x) hlt x le_rfl hsub y
            · simp
          all_goals simp [genericIdentical]
        | .mapped a1 b1 o1 =>
          have hsub : classFree a1 = true ∧ classFree b1 = true := by
            rw [classFree.eq_def] at hcf
            simpa [Bool.and_eq_true] using hcf
          have hlta : sizeOf a1 < n := by simp at hn; omega
          have hltb : sizeOf b1 < n := by simp at hn; omega
          cases h'
          case mapped a2 b2 o2 =>
            rw [genericIdentical_mapped]
            have h1 := IH (sizeOf a1) hlta a1 le_rfl hsub.1 a2
            cases hv : identical a1 a2 with
            | none => rw [hv] at h1; simp at h1
            | some v =>
              cases v
              · simp
              · exact IH (sizeOf b1) hltb b1 le_rfl hsub.2 b2
          all_goals simp [genericIdentical]
        | .index s ix => cases h' <;> simp [genericIdentical]
        | .mappedKeyType => cases h' <;> simp [genericIdentical]
        | .keyof t' => cases h' <;> simp [genericIdentical]
        | .conditional p q r s => cases h' <;> simp [genericIdentical]
        | .intersection x y => cases h' <;> simp [genericIdentical]
        | .inferred i => cases h' <;> simp [genericIdentical]
      all_goals simp [identical]
    | .interface fs idx call =>
      rw [classFree.eq_def] at hcf
      simp only [Bool.and_eq_true] at hcf
      obtain ⟨hf, hidx⟩ := hcf
      cases b
      case interface of oi oc =>
        simp only [identical]
        split
        · simp
        · split
          · simp
          · have hfi := fieldsIdentical_isSome
              (fun f hf' u => IH (sizeOf f.typ)
                (by
                  have h1 := List.sizeOf_lt_of_mem hf'
                  have h2 := IField.sizeOf_typ_lt f
                  simp at hn; omega)
                f.typ le_rfl (classFreeFields_mem hf hf') u) of
            cases hv : fieldsIdentical fs of with
            | none => rw [hv] at hfi; simp at hfi
            | some v =>
              cases v
              · simp
              · match idx, hidx with
                | none, _ => cases oi <;> simp [indexIdentical]
                | some (k, v'), hidx =>
                  simp only [Bool.and_eq_true] at hidx
                  cases oi with
                  | none => simp [indexIdentical]
                  | some p =>
                    obtain ⟨ok, ov⟩ := p
                    simp only [indexIdentical]
                    have hk := IH (sizeOf k)
                      (by simp at hn; omega) k le_rfl hidx.1 ok
                    cases hkv : identical k ok with
                    | none => rw [hkv] at hk; simp at hk
                    | some kv =>
                      cases kv
                      · simp
                      · exact IH (sizeOf v')
                          (by simp at hn; omega) v' le_rfl hidx.2 ov
      all_goals simp [identical]

theorem eq_never_of_isNever : ∀ {t : Ty}, isNever t = true → t = .basic .never := by
  intro t h
  cases t <;> try simp [isNever] at h
  case basic b => cases b <;> first | rfl | simp [isNever] at h

theorem union_merge_self {t : Ty} (h : identical t t = some true) :
    union_merge t t = some (some t) := by
  match t with
  | .basic bk => cases bk <;> simp [union_merge, basicLiteralMerge, h]
  | .validation e => simp [identical] at h
  | .validated t' e => simp [identical] at h
  | .class_ ms => simp [identical] at h
  | .array t' => simp [union_merge, basicLiteralMerge, h]
  | .interface fs idx call => simp [union_merge, basicLiteralMerge, h]
  | .union ts => simp [union_merge, basicLiteralMerge, h]
  | .tuple ts => simp [union_merge, basicLiteralMerge, h]
  | .literal l => simp [union_merge, basicLiteralMerge, h]
  | .enum_ ms => simp [union_merge, basicLiteralMerge, h]
  | .named i args => simp [union_merge, basicLiteralMerge, h]
  | .optional t' => simp [union_merge, basicLiteralMerge, h]
  | .this => simp [union_merge, basicLiteralMerge, h]
  | .generic g => simp [union_merge, basicLiteralMerge, h]
  | .custom l u no => simp [union_merge, basicLiteralMerge, h]

/-- C1 -- (counterexample): `identical` is *not* reflexive for every
constructed type: a standalone `Validation` type compared with itself
falls through to `identical`'s catch-all and yields `false` (there is no
`Validation` arm in `Type::identical`). -/
theorem c1_counterexample :
    identical (.validation (.atom 0)) (.validation (.atom 0)) = some false := by
  simp [identical]

/-- C1 -- (amended): `identical(t, t)` is true for every constructed `t`
in the reflexive-safe fragment (`identSafe`): no `Class` (whose
`identical` is `todo!()` and panics), no `Validation`/`Validated` and no
`Generic` variant other than `TypeParam`/`Mapped` (all of which fall to a
`false` catch-all), and interfaces with pairwise-distinct field names —
in every position `identical` traverses. -/
theorem c1_theorem (t : Ty) (h : identSafe t = true) : identical t t = some true :=
  identical_refl_of_safe (sizeOf t) t le_rfl h

/-- C1 -- witness: the amended reflexivity applied at a concrete type. -/
theorem c1_witness :
    identSafe (.optional (.basic .string)) = true ∧
    identical (.optional (.basic .string)) (.optional (.basic .string)) = some true :=
  ⟨by simp [identSafe], c1_theorem (.optional (.basic .string)) (by simp [identSafe])⟩

/-- C2 -- (counterexample): the algebra can panic, through two distinct
paths.  First, `identical` is not total: comparing two `Class` types
runs `ClassType::identical`, which is `todo!()` — the model's `none`.
Second, `intersect` panics even on inputs containing no `Class` type at
all: when the left interface repeats a field name that the right
interface also has, the second occurrence hits the
`.expect("field name should not appear twice")` in the interface arm.
The interface conjunct holds at two different fuel amounts (the loop
never reaches the fuel check on this path), so the `none` is the
modelled panic, not fuel exhaustion; the `classFree` conjuncts record
that no `Class` type occurs in these inputs. -/
theorem c2_counterexample :
    identical (.class_ []) (.class_ []) = none ∧
    classFree (.interface [.mk (.string ("a")) false (.basic .number),
        .mk (.string ("a")) false (.basic .string)] none none) = true ∧
    classFree (.interface [.mk (.string ("a")) false (.basic .boolean)] none none) = true ∧
    intersect 2 ctx0
      (.interface [.mk (.string ("a")) false (.basic .number),
        .mk (.string ("a")) false (.basic .string)] none none)
      (.interface [.mk (.string ("a")) false (.basic .boolean)] none none) = none ∧
    intersect 9 ctx0
      (.interface [.mk (.string ("a")) false (.basic .number),
        .mk (.string ("a")) false (.basic .string)] none none)
      (.interface [.mk (.string ("a")) false (.basic .boolean)] none none) = none := by
  refine ⟨by simp [identical], ?_, ?_, rfl, rfl⟩
  · simp [classFree, classFreeFields]
  · simp [classFree, classFreeFields]

/-- C2 -- (amended): the claim's universal no-panic guarantee fails — the
`todo!()` in `ClassType::identical` and the
`.expect("field name should not appear twice")` in `intersect`'s
interface arm are both reachable panics (see the counterexample) — but
its final sentence survives in restricted form: `identical` is total,
returning an ordinary value with no error condition, on every pair whose
left operand contains no `Class` type in an `identical`-traversed
position. -/
theorem c2_theorem (a b : Ty) (h : classFree a = true) :
    (identical a b).isSome = true :=
  identical_isSome_of_classFree (sizeOf a) a le_rfl h b

/-- C2 -- witness: totality applied at a concrete pair. -/
theorem c2_witness :
    classFree (.array (.basic .number)) = true ∧
    (identical (.array (.basic .number)) (.enum_ [])).isSome = true :=
  ⟨by simp [classFree],
   c2_theorem (.array (.basic .number)) (.enum_ []) (by simp [classFree])⟩

/-- C7 -- (counterexample): `simplify_union([t, t])` is not structurally
identical to `t` for every non-`Never` `t`, through two distinct
mechanisms.  For `t = Generic(Inferred 0)` no `union_merge` rule fires
(`identical(t, t)` is `false` for this variant), so the result is the
two-element union `t | t`, not identical to `t`.  For
`t = Validation(e)` the `Validation` × `Validation` rule of `union_merge`
*does* fire and merges the duplicates with OR into the single type
`Validation(e or e)` — but that is still not structurally identical to
`t`, since `Type::identical` has no `Validation` arm and returns `false`
on any pair of `Validation` types. -/
theorem c7_counterexample :
    (simplify_union [.generic (.inferred 0), .generic (.inferred 0)] =
      some (.union [.generic (.inferred 0), .generic (.inferred 0)]) ∧
     identical (.union [.generic (.inferred 0), .generic (.inferred 0)])
      (.generic (.inferred 0)) = some false) ∧
    (simplify_union [.validation (.atom 0), .validation (.atom 0)] =
      some (.validation (.or (.atom 0) (.atom 0))) ∧
     identical (.validation (.or (.atom 0) (.atom 0)))
      (.validation (.atom 0)) = some false) := by
  refine ⟨⟨?_, ?_⟩, ?_, ?_⟩
  · simp [simplify_union, simplifyUnionLoop, mergeIntoResults, union_merge,
      basicLiteralMerge, isNever, identical, genericIdentical]
  · simp [identical]
  · simp [simplify_union, simplifyUnionLoop, mergeIntoResults, union_merge,
      basicLiteralMerge, isNever, VExpr.orE]
  · simp [identical]

/-- C7 -- (amended): for every `t` on which `identical` is reflexive
(`identical(t, t) = true`; this excludes `Validation`, `Validated`,
`Class` and the `Generic` variants other than `TypeParam`/`Mapped`),
`simplify_union([t, t])` returns exactly `t`.  For the excluded types the
result is not structurally identical to `t`: see the counterexample for
the two mechanisms (non-merging duplicates vs. an OR-merge that
`identical` still does not equate with `t`). -/
theorem c7_theorem (t : Ty) (h : identical t t = some true) :
    simplify_union [t, t] = some t := by
  by_cases hnev : isNever t = true
  · have ht := eq_never_of_isNever hnev
    subst ht
    simp [simplify_union, simplifyUnionLoop, isNever]
  · have hnev' : isNever t = false := by
      cases hv : isNever t
      · rfl
      · exact absurd hv hnev
    have hm := union_merge_self h
    simp [simplify_union, simplifyUnionLoop, mergeIntoResults, hnev', hm]

/-- C7 -- witness: union idempotence applied at a concrete type. -/
theorem c7_witness : simplify_union [.basic .string, .basic .string] = some (.basic .string) :=
  c7_theorem (.basic .string) (by simp [identical])

/-- C8 --: `identical` on two `Union`s and on two `Tuple`s compares
element lists positionally via `zip` and ignores any length mismatch
beyond the shorter list: if `xs` is (pairwise-`identical`) a prefix of
`ys`, both `Union(xs) ~ Union(ys)` and `Tuple(xs) ~ Tuple(ys)` are
identical, even when `ys` is strictly longer. -/
theorem c8_theorem (xs ys : List Ty) (hlen : xs.length ≤ ys.length)
    (h : ∀ p ∈ xs.zip ys, identical p.1 p.2 = some true) :
    identical (.union xs) (.union ys) = some true ∧
    identical (.tuple xs) (.tuple ys) = some true := by
  have hz : zipAllIdentical xs ys = some true := by
    clear hlen
    induction xs generalizing ys with
    | nil => cases ys <;> simp [zipAllIdentical]
    | cons x xs ih =>
      cases ys with
      | nil => simp [zipAllIdentical]
      | cons y ys =>
        simp only [zipAllIdentical]
        have h1 : identical x y = some true :=
          h (x, y) (by rw [List.zip_cons_cons]; exact List.mem_cons_self _ _)
        rw [h1]
        exact ih ys (fun p hp =>
          h p (by rw [List.zip_cons_cons]; exact List.mem_cons_of_mem _ hp))
  exact ⟨by simp only [identical]; exact hz, by simp only [identical]; exact hz⟩

/-- C8 -- witness: a strict prefix — `ys` one element longer — still
compares as identical for both `Union` and `Tuple`. -/
theorem c8_witness :
    identical (.union [.basic .string]) (.union [.basic .string, .basic .number]) = some true ∧
    identical (.tuple [.basic .string]) (.tuple [.basic .string, .basic .number]) = some true := by
  refine c8_theorem [.basic .string] [.basic .string, .basic .number] (by simp) ?_
  intro p hp
  simp only [List.zip_cons_cons, List.zip_nil_left, List.mem_singleton] at hp
  subst hp
  simp [identical]

/-- C3 -- (counterexample): the claimed absorption fails when `Any`
meets `Never`: the `Any` rule precedes the `Never` rule in `intersect`,
so `intersect(Any, Never)` and `intersect(Never, Any)` are `Any`, not
`Never` as the claim ("including when t is itself one of the absorbing
elements") requires. -/
theorem c3_counterexample :
    intersect 1 ctx0 (.basic .any) (.basic .never) = some (.basic .any) ∧
    intersect 1 ctx0 (.basic .never) (.basic .any) = some (.basic .any) :=
  ⟨rfl, rfl⟩

/-- C3 -- (amended): with any non-zero fuel, `intersect(t, Any)` and
`intersect(Any, t)` are `Any` for every `t`; `intersect(t, Unknown)` and
`intersect(Unknown, t)` are exactly `t` for every `t`; and
`intersect(t, Never)` and `intersect(Never, t)` are `Never` for every `t`
*other than* `Basic::Any`, on which the `Any` rule wins. -/
theorem c3_theorem (fuel : Nat) (ctx : Ctx) (t : Ty) :
    (intersect (fuel + 1) ctx t (.basic .any) = some (.basic .any) ∧
     intersect (fuel + 1) ctx (.basic .any) t = some (.basic .any)) ∧
    (intersect (fuel + 1) ctx t (.basic .unknown) = some t ∧
     intersect (fuel + 1) ctx (.basic .unknown) t = some t) ∧
    (t ≠ .basic .any →
     intersect (fuel + 1) ctx t (.basic .never) = some (.basic .never) ∧
     intersect (fuel + 1) ctx (.basic .never) t = some (.basic .never)) := by
  match t with
  | .basic bk =>
    cases bk <;>
      refine ⟨⟨rfl, rfl⟩, ⟨rfl, rfl⟩, fun hne => ?_⟩ <;>
      first
        | exact ⟨rfl, rfl⟩
        | exact absurd rfl hne
  | .array e => exact ⟨⟨rfl, rfl⟩, ⟨rfl, rfl⟩, fun _ => ⟨rfl, rfl⟩⟩
  | .interface fs idx call => exact ⟨⟨rfl, rfl⟩, ⟨rfl, rfl⟩, fun _ => ⟨rfl, rfl⟩⟩
  | .union ts => exact ⟨⟨rfl, rfl⟩, ⟨rfl, rfl⟩, fun _ => ⟨rfl, rfl⟩⟩
  | .tuple ts => exact ⟨⟨rfl, rfl⟩, ⟨rfl, rfl⟩, fun _ => ⟨rfl, rfl⟩⟩
  | .literal l => exact ⟨⟨rfl, rfl⟩, ⟨rfl, rfl⟩, fun _ => ⟨rfl, rfl⟩⟩
  | .class_ ms => exact ⟨⟨rfl, rfl⟩, ⟨rfl, rfl⟩, fun _ => ⟨rfl, rfl⟩⟩
  | .enum_ ms => exact ⟨⟨rfl, rfl⟩, ⟨rfl, rfl⟩, fun _ => ⟨rfl, rfl⟩⟩
  | .named i args => exact ⟨⟨rfl, rfl⟩, ⟨rfl, rfl⟩, fun _ => ⟨rfl, rfl⟩⟩
  | .optional inner => exact ⟨⟨rfl, rfl⟩, ⟨rfl, rfl⟩, fun _ => ⟨rfl, rfl⟩⟩
  | .this => exact ⟨⟨rfl, rfl⟩, ⟨rfl, rfl⟩, fun _ => ⟨rfl, rfl⟩⟩
  | .generic g => exact ⟨⟨rfl, rfl⟩, ⟨rfl, rfl⟩, fun _ => ⟨rfl, rfl⟩⟩
  | .validation e => exact ⟨⟨rfl, rfl⟩, ⟨rfl, rfl⟩, fun _ => ⟨rfl, rfl⟩⟩
  | .validated t' e => exact ⟨⟨rfl, rfl⟩, ⟨rfl, rfl⟩, fun _ => ⟨rfl, rfl⟩⟩
  | .custom l u no => exact ⟨⟨rfl, rfl⟩, ⟨rfl, rfl⟩, fun _ => ⟨rfl, rfl⟩⟩

/-- C3 -- witness: the amended absorption at a concrete non-`Any` type. -/
theorem c3_witness :
    (intersect 1 ctx0 (.basic .string) (.basic .any) = some (.basic .any) ∧
     intersect 1 ctx0 (.basic .any) (.basic .string) = some (.basic .any)) ∧
    (intersect 1 ctx0 (.basic .string) (.basic .unknown) = some (.basic .string) ∧
     intersect 1 ctx0 (.basic .unknown) (.basic .string) = some (.basic .string)) ∧
    (intersect 1 ctx0 (.basic .string) (.basic .never) = some (.basic .never) ∧
     intersect 1 ctx0 (.basic .never) (.basic .string) = some (.basic .never)) := by
  obtain ⟨h1, h2, h3⟩ := c3_theorem 0 ctx0 (.basic .string)
  exact ⟨h1, h2, h3 (by simp)⟩

/-- C4 -- (the code evaluated at the failing input): the index-signature
condition in the interface arm of `intersect` is inverted relative to the
claim (and to the source's own comment): with *empty* merged fields, two
index signatures are *discarded* (first conjunct), and with *non-empty*
merged fields an index signature is *kept* (second conjunct). -/
theorem c4_theorem :
    intersect 1 ctx0
      (.interface [] (some (.basic .string, .basic .number)) none)
      (.interface [] (some (.basic .string, .basic .boolean)) none) =
      some (.interface [] none none) ∧
    intersect 1 ctx0
      (.interface [.mk (.string ("a")) false (.basic .number)]
        (some (.basic .string, .basic .number)) none)
      (.interface [] none none) =
      some (.interface [.mk (.string ("a")) false (.basic .number)]
        (some (.basic .string, .basic .number)) none) :=
  ⟨rfl, rfl⟩

/-- C5 -- (the code evaluated at the failing input): an enum with *no*
members is reported assignable (`Some(true)`) to an interface with the
string-named field `X`, because the `Enum` × `Interface` arm of
`assignable` silently skips interface fields whose name matches no enum
member. -/
theorem c5_theorem :
    assignable 1 ctx0 (.enum_ [])
      (.interface [.mk (.string ("X")) false (.basic .string)] none none) =
      some .yes :=
  rfl

/-- C6 -- (the code evaluated at the failing input):
`intersect(Optional(String), Undefined)` is `Never`, not `Undefined`: the
optional arm of `intersect` passes the optional's *inner* type to
`union_with`, so the implicit `undefined` member of `inner | undefined`
is lost. -/
theorem c6_theorem :
    intersect 2 ctx0 (.optional (.basic .string)) (.basic .undefined) =
      some (.basic .never) := by
  show unionWithR (intersect 1 ctx0) (.basic .string) (.basic .undefined) =
    some (.basic .never)
  unfold unionWithR
  rw [show iterUnions (.basic .string) = [.basic .string] from by simp [iterUnions]]
  rfl

theorem extends_inferred (n : Nat) (ctx : Ctx) (t : Ty) (i : Nat) :
    extends_ (n + 1) ctx t (.generic (.inferred i)) = some (.yes [(i, t)]) := by
  cases t <;> rfl

theorem extendsArrayLoopR_inferred (n : Nat) (ctx : Ctx) (slot : Nat) :
    ∀ ts : List Ty,
    extendsArrayLoopR (extends_ (n + 1) ctx) (.generic (.inferred slot)) ts =
      some (.yes (ts.map (fun t => (slot, t)))) := by
  intro ts
  induction ts with
  | nil => rfl
  | cons t ts ih =>
    simp only [extendsArrayLoopR]
    rw [extends_inferred]
    show (match extendsArrayLoopR (extends_ (n + 1) ctx) (.generic (.inferred slot)) ts with
          | none => none
          | some (.yes rest) => some (.yes ([(slot, t)] ++ rest))
          | some r => some r) = some (.yes ((t :: ts).map (fun t => (slot, t))))
    rw [ih]
    simp

theorem insertByKey_const {k : Nat} {p : Nat × Ty} :
    ∀ {acc : List (Nat × Ty)}, (∀ q ∈ acc, q.1 = k) → p.1 = k →
    insertByKey p acc = acc ++ [p] := by
  intro acc
  induction acc with
  | nil => intro _ _; rfl
  | cons q qs ih =>
    intro hacc hp
    have hq : q.1 = k := hacc q (List.mem_cons_self _ _)
    simp only [insertByKey]
    rw [if_pos (by omega : q.1 ≤ p.1)]
    rw [ih (fun r hr => hacc r (List.mem_cons_of_mem _ hr)) hp]
    rfl

theorem sortByKey_const_aux {k : Nat} :
    ∀ (l acc : List (Nat × Ty)), (∀ q ∈ acc, q.1 = k) → (∀ p ∈ l, p.1 = k) →
    List.foldl (fun acc p => insertByKey p acc) acc l = acc ++ l := by
  intro l
  induction l with
  | nil => intro acc _ _; simp
  | cons p l ih =>
    intro acc hacc hl
    simp only [List.foldl_cons]
    rw [insertByKey_const hacc (hl p (List.mem_cons_self _ _))]
    rw [ih (acc ++ [p])
      (fun q hq => by
        rcases List.mem_append.mp hq with h | h
        · exact hacc q h
        · simp only [List.mem_singleton] at h
          subst h
          exact hl q (List.mem_cons_self _ _))
      (fun q hq => hl q (List.mem_cons_of_mem _ hq))]
    simp

theorem sortByKey_const (k : Nat) (l : List (Nat × Ty)) (h : ∀ p ∈ l, p.1 = k) :
    sortByKey l = l := by
  unfold sortByKey
  rw [sortByKey_const_aux l [] (by simp) h]
  simp

theorem chunkByKey_const (slot : Nat) :
    ∀ (ts : List Ty), ts ≠ [] →
    chunkByKey (ts.map (fun t => (slot, t))) = [(slot, ts)] := by
  intro ts
  induction ts with
  | nil => intro h; exact absurd rfl h
  | cons t ts ih =>
    intro _
    cases ts with
    | nil => rfl
    | cons t2 ts2 =>
      have h2 := ih (by simp)
      simp only [List.map_cons] at h2 ⊢
      rw [chunkByKey]
      rw [h2]
      simp

/-- C9 --: when a `Tuple` is checked with `extends` against
`Array(Inferred(slot))`, every element succeeds via the `Inferred` arm,
and all per-element bindings for the slot are grouped (stable sort +
chunking) and combined with `simplify_union` into a single binding: the
result is `Yes` with exactly the one binding `slot ↦ simplify_union ts`. -/
theorem c9_theorem (n : Nat) (ctx : Ctx) (slot : Nat) (ts : List Ty) (u : Ty)
    (hne : ts ≠ []) (hsu : simplify_union ts = some u) :
    extends_ (n + 2) ctx (.tuple ts) (.array (.generic (.inferred slot))) =
      some (.yes [(slot, u)]) := by
  show (match extendsArrayLoopR (extends_ (n + 1) ctx) (.generic (.inferred slot)) ts with
        | none => none
        | some (ExtendsR.yes inferred) =>
          (match combineInferred (chunkByKey (sortByKey inferred)) with
           | none => none
           | some combined => some (ExtendsR.yes combined))
        | some r => some r) = some (.yes [(slot, u)])
  rw [extendsArrayLoopR_inferred]
  show (match combineInferred
          (chunkByKey (sortByKey (ts.map (fun t => (slot, t))))) with
        | none => none
        | some combined => some (ExtendsR.yes combined)) = some (.yes [(slot, u)])
  rw [sortByKey_const slot (ts.map (fun t => (slot, t)))
    (by
      intro p hp
      simp only [List.mem_map] at hp
      obtain ⟨x, _, rfl⟩ := hp
      rfl)]
  rw [chunkByKey_const slot ts hne]
  simp [combineInferred, hsu]

/-- C9 -- witness: `Tuple([Number, String]).extends(Array(Inferred 0))`
is `Yes` with slot 0 bound to `Number | String`. -/
theorem c9_witness :
    extends_ 2 ctx0 (.tuple [.basic .number, .basic .string])
      (.array (.generic (.inferred 0))) =
      some (.yes [(0, .union [.basic .number, .basic .string])]) := by
  have hsu : simplify_union [.basic .number, .basic .string] =
      some (.union [.basic .number, .basic .string]) := by
    simp [simplify_union, simplifyUnionLoop, mergeIntoResults, union_merge,
      basicLiteralMerge, isNever, identical,
      show (Basic.number == Basic.string) = false from rfl]
  exact c9_theorem 0 ctx0 0 [.basic .number, .basic .string]
    (.union [.basic .number, .basic .string]) (by simp) hsu

/-- C10 --: the union flattening (`iter_unions`) strips `Validated`
wrappers (ignoring the validation expression) and decomposes
`Optional(t)` into `t`'s members plus `Undefined`; and assignability of
`Validated{typ, expr}` to a `Union` target is exactly assignability of
the carried type (so `Validated{t, e}` is assignable to `Union([t])`
whenever `t` is, regardless of `e`). -/
theorem c10_theorem :
    (∀ (t : Ty) (e : VExpr), iterUnions (.validated t e) = iterUnions t) ∧
    (∀ t : Ty, iterUnions (.optional t) = iterUnions t ++ [.basic .undefined]) ∧
    (∀ (n : Nat) (ctx : Ctx) (t : Ty) (e : VExpr) (u : List Ty),
      assignable (n + 1) ctx (.validated t e) (.union u) =
        assignable n ctx t (.union u)) ∧
    (∀ (n : Nat) (ctx : Ctx) (t : Ty) (e : VExpr),
      assignable n ctx t (.union [t]) = some .yes →
      assignable (n + 1) ctx (.validated t e) (.union [t]) = some .yes) := by
  refine ⟨fun t e => by simp [iterUnions], fun t => by simp [iterUnions],
    fun n ctx t e u => rfl, fun n ctx t e h => ?_⟩
  show assignable n ctx t (.union [t]) = some .yes
  exact h

/-- C10 -- witness: a concrete `Validated` type is assignable to the
one-element union of its carried type. -/
theorem c10_witness :
    assignable 3 ctx0 (.validated (.basic .string) (.atom 0))
      (.union [.basic .string]) = some .yes := by
  have h : assignable 2 ctx0 (.basic .string) (.union [.basic .string]) = some .yes := by
    show assignUnionOuterR (assignable 1 ctx0) [.basic .string]
      (iterUnions (.basic .string)) = some .yes
    rw [show iterUnions (.basic .string) = [.basic .string] from by simp [iterUnions]]
    rfl
  exact c10_theorem.2.2.2 2 ctx0 (.basic .string) (.atom 0) h
